import Mathlib

/-!
# Verification of `NormalizeKernelUnitVariance`

Shallow embedding of
`src/include/shark/Algorithms/Trainers/NormalizeKernelUnitVariance.h`
from the Shark library.

The trainer's `train` method computes, over a dataset of `N` elements and a
symmetric kernel `eval`, the trace and a doubled half-matrix accumulator of
the implicit `N × N` kernel matrix, via a cache-blocked traversal with block
side 64, then derives a scaling factor `1 / (trace/N - mean/N/N)`.

The dataset is abstracted to its index range `[0, N)` and the kernel to a
function `eval : ℕ → ℕ → ℚ` (the source accumulates in `double`; we use `ℚ`
for exact arithmetic).  Each `main->eval(input(ii), input(jj))` call in the
source becomes an application `eval ii jj`.  Since `eval` is a pure function
here, reading the diagonal value once into a local `d` and using it twice
(as the source does) is the same as evaluating twice; the accumulators for
`mean` and `trace` are written as two instances of one generic blocked
accumulation `blockedAcc` whose loop structure is the source's, with the
off-diagonal and diagonal loop bodies as parameters.
-/

namespace Shark

open Finset

/-- Generic blocked accumulation mirroring the loop nest of `train`
(lines 90-134 of `NormalizeKernelUnitVariance.h`): `blocks = N / 64`,
`rest = N - 64 * blocks`; for each full block `ci`, first the diagonal
block (inner columns `j < i`, then the diagonal entry), then the
off-diagonal block pairs `cj < ci`; if `rest > 0`, the margins (for each
full block `cj`, columns `jj` of that block against the `rest` rows) and
the lower-right diagonal block.  `off ii jj` is what the loop body adds
for the entry `(ii, jj)` with `ii > jj`, and `diag ii` what it adds for
the diagonal entry `(ii, ii)`. -/
def blockedAcc (N : ℕ) (off : ℕ → ℕ → ℚ) (diag : ℕ → ℚ) : ℚ :=
  let blocks := N / 64
  let rest := N - 64 * blocks
  (∑ ci ∈ range blocks,
    ((∑ i ∈ range 64, ((∑ j ∈ range i, off (64 * ci + i) (64 * ci + j))
        + diag (64 * ci + i)))
      + ∑ cj ∈ range ci, ∑ i ∈ range 64, ∑ j ∈ range 64,
          off (64 * ci + i) (64 * cj + j)))
  + (if 0 < rest then
      (∑ cj ∈ range blocks, ∑ j ∈ range 64, ∑ i ∈ range rest,
          off (64 * blocks + i) (64 * cj + j))
      + ∑ i ∈ range rest, ((∑ j ∈ range i, off (64 * blocks + i) (64 * blocks + j))
          + diag (64 * blocks + i))
    else 0)

/-- The same accumulation as a flat lower-triangle traversal
(row `i` from `0` to `N-1`, columns `j < i`, then the diagonal entry). -/
def flatAcc (N : ℕ) (off : ℕ → ℕ → ℚ) (diag : ℕ → ℚ) : ℚ :=
  ∑ i ∈ range N, ((∑ j ∈ range i, off i j) + diag i)

/-- The local `mean` accumulator of `train` just before `mean *= 2.0`
(line 135): off-diagonal entries of the visited lower triangle counted in
full, diagonal entries with weight `0.5`. -/
def trainRawMean (N : ℕ) (eval : ℕ → ℕ → ℚ) : ℚ :=
  blockedAcc N (fun ii jj => eval ii jj) (fun ii => 0.5 * eval ii ii)

/-- The value stored into `m_mean` (line 136): the raw accumulator doubled. -/
def trainMean (N : ℕ) (eval : ℕ → ℕ → ℚ) : ℚ :=
  2 * trainRawMean N eval

/-- The value stored into `m_trace` (line 137): the sum of the diagonal
evaluations made during the traversal. -/
def trainTrace (N : ℕ) (eval : ℕ → ℕ → ℚ) : ℚ :=
  blockedAcc N (fun _ _ => 0) (fun ii => eval ii ii)

/-- `double tm = trace/N - mean/N/N;` (line 138). -/
def trainDenom (N : ℕ) (eval : ℕ → ℕ → ℚ) : ℚ :=
  trainTrace N eval / (N : ℚ) - trainMean N eval / (N : ℚ) / (N : ℚ)

/-- How `train` terminates: normally, by the `SHARK_CHECK` on the dataset
size (line 79), or by the `SHARK_ASSERT(tm > 0)` (line 139). -/
inductive TrainOutcome where
  | success
  | invalidArgument
  | assertionFailure
deriving DecidableEq

/-- The mutable state `train` touches: the trainer's `m_mean` and `m_trace`
members and the `ScaledKernel`'s scale factor (written via `setFactor`). -/
structure TrainerState where
  m_mean : ℚ
  m_trace : ℚ
  kernelFactor : ℚ
deriving DecidableEq

/-- `NormalizeKernelUnitVariance::train` (lines 77-142), as a state
transformer: starting from state `s`, on a dataset of `N` elements with
kernel `eval`.  The `SHARK_CHECK` fires before any work; otherwise the
traversal runs, `m_mean` and `m_trace` are written, and only then is `tm`
tested: on `tm > 0` the scale factor `1/tm` is written, else the assertion
fires with the statistics already overwritten. -/
def train (s : TrainerState) (N : ℕ) (eval : ℕ → ℕ → ℚ) :
    TrainerState × TrainOutcome :=
  if N < 2 then (s, TrainOutcome.invalidArgument)
  else
    let mean := trainMean N eval
    let trace := trainTrace N eval
    let s1 : TrainerState := { s with m_mean := mean, m_trace := trace }
    let tm := trace / (N : ℚ) - mean / (N : ℚ) / (N : ℚ)
    if 0 < tm then ({ s1 with kernelFactor := 1 / tm }, TrainOutcome.success)
    else (s1, TrainOutcome.assertionFailure)

/-- Number of evaluator calls `main->eval(input(a), input(b))` with this
exact argument pair that one call `train _ N _` performs: zero if the size
check fails, otherwise one per visit of the traversal. -/
def evalCallsAt (N a b : ℕ) : ℚ :=
  if N < 2 then 0
  else blockedAcc N (fun ii jj => if ii = a ∧ jj = b then 1 else 0)
    (fun ii => if ii = a ∧ ii = b then 1 else 0)

/-- Total number of evaluator calls one call `train _ N _` performs. -/
def totalEvalCalls (N : ℕ) : ℚ :=
  if N < 2 then 0 else blockedAcc N (fun _ _ => 1) (fun _ => 1)

/-- The two-point kernel of the spec's concrete test case:
`eval(x0,x0) = 4`, `eval(x1,x1) = 6`, `eval(x0,x1) = eval(x1,x0) = 2`. -/
def e2 : ℕ → ℕ → ℚ := fun i j =>
  if i = 0 ∧ j = 0 then 4
  else if i = 1 ∧ j = 1 then 6
  else if (i = 0 ∧ j = 1) ∨ (i = 1 ∧ j = 0) then 2
  else 0

/-- An arbitrary pre-`train` state (prior mean 0, prior trace 0, factor 1). -/
def s0 : TrainerState := ⟨0, 0, 1⟩

/-! ## Structural lemmas: the blocked traversal is the flat triangle -/

/-- Splitting a `range (m + s)` sum into the first `m` and the last `s`. -/
lemma sum_block_cols (g : ℕ → ℚ) (k : ℕ) :
    ∑ c ∈ range k, ∑ j ∈ range 64, g (64 * c + j)
      = ∑ j ∈ range (64 * k), g j := by
  induction k with
  | zero => simp
  | succ k ih =>
    have h64 : 64 * (k + 1) = 64 * k + 64 := by ring
    rw [Finset.sum_range_succ, ih, h64, Finset.sum_range_add]

/-- Extending a flat lower-triangle accumulation from `m` rows to `m + s`
rows adds a full `s × m` rectangle and a triangular block of side `s`. -/
lemma flatAcc_add (off : ℕ → ℕ → ℚ) (diag : ℕ → ℚ) (m s : ℕ) :
    flatAcc (m + s) off diag
      = flatAcc m off diag
        + (∑ i ∈ range s, ∑ j ∈ range m, off (m + i) j)
        + ∑ i ∈ range s, ((∑ j ∈ range i, off (m + i) (m + j)) + diag (m + i)) := by
  unfold flatAcc
  rw [Finset.sum_range_add]
  have h1 : ∀ i, (∑ j ∈ range (m + i), off (m + i) j)
      = (∑ j ∈ range m, off (m + i) j) + ∑ j ∈ range i, off (m + i) (m + j) :=
    fun i => Finset.sum_range_add _ m i
  simp only [h1, Finset.sum_add_distrib]
  ring

/-- The cache-blocked traversal of `train` accumulates exactly what the flat
lower-triangle traversal accumulates, for any loop bodies. -/
lemma blockedAcc_eq_flatAcc (N : ℕ) (off : ℕ → ℕ → ℚ) (diag : ℕ → ℚ) :
    blockedAcc N off diag = flatAcc N off diag := by
  have hmain : ∀ b : ℕ,
      (∑ ci ∈ range b,
        ((∑ i ∈ range 64, ((∑ j ∈ range i, off (64 * ci + i) (64 * ci + j))
            + diag (64 * ci + i)))
          + ∑ cj ∈ range ci, ∑ i ∈ range 64, ∑ j ∈ range 64,
              off (64 * ci + i) (64 * cj + j)))
        = flatAcc (64 * b) off diag := by
    intro b
    induction b with
    | zero => simp [flatAcc]
    | succ b ih =>
      rw [Finset.sum_range_succ, ih]
      have hoff : (∑ cj ∈ range b, ∑ i ∈ range 64, ∑ j ∈ range 64,
            off (64 * b + i) (64 * cj + j))
          = ∑ i ∈ range 64, ∑ j ∈ range (64 * b), off (64 * b + i) j := by
        rw [Finset.sum_comm]
        exact Finset.sum_congr rfl fun i _ => sum_block_cols _ b
      have h64 : 64 * (b + 1) = 64 * b + 64 := by ring
      rw [h64, flatAcc_add, hoff]
      ring
  simp only [blockedAcc]
  by_cases hrest : 0 < N - 64 * (N / 64)
  · rw [if_pos hrest, hmain]
    have hmarg : (∑ cj ∈ range (N / 64), ∑ j ∈ range 64, ∑ i ∈ range (N - 64 * (N / 64)),
          off (64 * (N / 64) + i) (64 * cj + j))
        = ∑ i ∈ range (N - 64 * (N / 64)), ∑ j ∈ range (64 * (N / 64)),
            off (64 * (N / 64) + i) j := by
      have h1 : ∀ cj : ℕ, (∑ j ∈ range 64, ∑ i ∈ range (N - 64 * (N / 64)),
            off (64 * (N / 64) + i) (64 * cj + j))
          = ∑ i ∈ range (N - 64 * (N / 64)), ∑ j ∈ range 64,
              off (64 * (N / 64) + i) (64 * cj + j) :=
        fun cj => Finset.sum_comm
      simp only [h1]
      rw [Finset.sum_comm]
      exact Finset.sum_congr rfl fun i _ =>
        sum_block_cols (fun j => off (64 * (N / 64) + i) j) (N / 64)
    rw [hmarg]
    have hsplit := flatAcc_add off diag (64 * (N / 64)) (N - 64 * (N / 64))
    have hN : 64 * (N / 64) + (N - 64 * (N / 64)) = N := by omega
    rw [hN] at hsplit
    rw [hsplit]
    ring
  · rw [if_neg hrest, add_zero, hmain]
    have : 64 * (N / 64) = N := by omega
    rw [this]

/-! ## Closed forms for the accumulated statistics -/

/-- `m_trace` is the sum of the diagonal evaluations. -/
lemma trainTrace_eq (N : ℕ) (eval : ℕ → ℕ → ℚ) :
    trainTrace N eval = ∑ i ∈ range N, eval i i := by
  unfold trainTrace
  rw [blockedAcc_eq_flatAcc]
  unfold flatAcc
  simp

/-- The raw `mean` accumulator is the flat lower-triangle sum with the
diagonal half-weighted. -/
lemma trainRawMean_eq (N : ℕ) (eval : ℕ → ℕ → ℚ) :
    trainRawMean N eval
      = ∑ i ∈ range N, ((∑ j ∈ range i, eval i j) + 0.5 * eval i i) := by
  unfold trainRawMean
  rw [blockedAcc_eq_flatAcc]
  rfl

/-- Gauss sum, cast to `ℚ`. -/
lemma sum_range_cast (N : ℕ) :
    ∑ i ∈ range N, (i : ℚ) = N * (N - 1) / 2 := by
  induction N with
  | zero => simp
  | succ N ih =>
    rw [Finset.sum_range_succ, ih]
    push_cast
    ring

/-- A square double sum splits into strict lower triangle, strict upper
triangle and diagonal. -/
lemma sum_sq_split (f : ℕ → ℕ → ℚ) (N : ℕ) :
    ∑ i ∈ range N, ∑ j ∈ range N, f i j
      = (∑ i ∈ range N, ∑ j ∈ range i, f i j)
        + (∑ i ∈ range N, ∑ j ∈ range i, f j i)
        + ∑ i ∈ range N, f i i := by
  induction N with
  | zero => simp
  | succ N ih =>
    simp only [Finset.sum_range_succ, Finset.sum_add_distrib]
    rw [ih]
    ring

/-- For a kernel symmetric on the dataset, the stored `m_mean` is the full
`N × N` matrix sum (not the matrix average). -/
lemma trainMean_eq_fullSum (N : ℕ) (eval : ℕ → ℕ → ℚ)
    (hsym : ∀ i < N, ∀ j < N, eval i j = eval j i) :
    trainMean N eval = ∑ i ∈ range N, ∑ j ∈ range N, eval i j := by
  unfold trainMean
  rw [trainRawMean_eq, sum_sq_split]
  have h : ∑ i ∈ range N, ∑ j ∈ range i, eval j i
      = ∑ i ∈ range N, ∑ j ∈ range i, eval i j := by
    apply Finset.sum_congr rfl
    intro i hi
    apply Finset.sum_congr rfl
    intro j hj
    have hiN : i < N := Finset.mem_range.mp hi
    have hji : j < i := Finset.mem_range.mp hj
    exact hsym j (hji.trans hiN) i hiN
  rw [h]
  simp only [Finset.sum_add_distrib]
  rw [← Finset.mul_sum]
  ring

/-- Per-pair call count: during `train` on `N ≥ 2` points, the pair
`(a, b)` is passed to the evaluator exactly once when `b ≤ a < N` and
never otherwise. -/
lemma evalCallsAt_eq (N a b : ℕ) (h2 : 2 ≤ N) :
    evalCallsAt N a b = if b ≤ a ∧ a < N then 1 else 0 := by
  unfold evalCallsAt
  rw [if_neg (by omega : ¬ N < 2), blockedAcc_eq_flatAcc]
  unfold flatAcc
  by_cases haN : a < N
  · rw [Finset.sum_eq_single_of_mem a (Finset.mem_range.mpr haN)]
    · rcases lt_trichotomy b a with hba | hba | hba
      · have hne : ¬ (a = b) := by omega
        simp only [hne, and_true, and_false, if_false, add_zero, true_and, eq_self_iff_true]
        rw [Finset.sum_ite_eq' (range a) b fun _ => (1 : ℚ)]
        rw [if_pos (Finset.mem_range.mpr hba), if_pos ⟨le_of_lt hba, haN⟩]
      · have : (∑ j ∈ range a, if a = a ∧ j = b then (1 : ℚ) else 0) = 0 := by
          apply Finset.sum_eq_zero
          intro j hj
          have hjb : j ≠ b := by
            have := Finset.mem_range.mp hj
            omega
          simp [hjb]
        rw [this]
        simp [hba, haN]
      · have h1 : ¬ (b ≤ a ∧ a < N) := by omega
        have hne : a ≠ b := by omega
        rw [if_neg h1]
        have : (∑ j ∈ range a, if a = a ∧ j = b then (1 : ℚ) else 0) = 0 := by
          apply Finset.sum_eq_zero
          intro j hj
          have : j ≠ b := by
            have := Finset.mem_range.mp hj
            omega
          simp [this]
        rw [this]
        simp [hne]
    · intro i _ hia
      simp [hia]
  · have h1 : ¬ (b ≤ a ∧ a < N) := by omega
    rw [if_neg h1]
    apply Finset.sum_eq_zero
    intro i hi
    have : i ≠ a := by
      have := Finset.mem_range.mp hi
      omega
    simp [this]

/-- Total call count: `train` on `N ≥ 2` points makes `N (N + 1) / 2`
evaluator calls. -/
lemma totalEvalCalls_eq (N : ℕ) (h2 : 2 ≤ N) :
    totalEvalCalls N = N * (N + 1) / 2 := by
  unfold totalEvalCalls
  rw [if_neg (by omega : ¬ N < 2), blockedAcc_eq_flatAcc]
  unfold flatAcc
  simp only [Finset.sum_const, Finset.card_range, nsmul_eq_mul, mul_one]
  rw [Finset.sum_add_distrib, sum_range_cast]
  simp only [Finset.sum_const, Finset.card_range, nsmul_eq_mul, mul_one]
  ring

/-- Unfolding `train` past the size check. -/
lemma train_eq (s : TrainerState) (N : ℕ) (eval : ℕ → ℕ → ℚ) (h2 : 2 ≤ N) :
    train s N eval =
      if 0 < trainDenom N eval then
        (⟨trainMean N eval, trainTrace N eval, 1 / trainDenom N eval⟩,
          TrainOutcome.success)
      else
        (⟨trainMean N eval, trainTrace N eval, s.kernelFactor⟩,
          TrainOutcome.assertionFailure) := by
  unfold train
  rw [if_neg (by omega : ¬ N < 2)]
  rfl

/-- For the constant kernel `c`, the stored trace is `N c`, the stored mean
is `N² c`, and the denominator `tm` is exactly `0`. -/
lemma const_kernel_stats (N : ℕ) (c : ℚ) (h2 : 2 ≤ N) :
    trainTrace N (fun _ _ => c) = N * c
      ∧ trainMean N (fun _ _ => c) = (N : ℚ) ^ 2 * c
      ∧ trainDenom N (fun _ _ => c) = 0 := by
  have htr : trainTrace N (fun _ _ => c) = N * c := by
    rw [trainTrace_eq]
    simp [Finset.sum_const, mul_comm]
  have hm : trainMean N (fun _ _ => c) = (N : ℚ) ^ 2 * c := by
    unfold trainMean
    rw [trainRawMean_eq]
    simp only [Finset.sum_const, Finset.card_range, nsmul_eq_mul, mul_one]
    rw [Finset.sum_add_distrib, ← Finset.sum_mul, sum_range_cast]
    simp only [Finset.sum_const, Finset.card_range, nsmul_eq_mul]
    ring
  refine ⟨htr, hm, ?_⟩
  unfold trainDenom
  rw [htr, hm]
  have hN : (N : ℚ) ≠ 0 := by
    have : (0 : ℚ) < N := by
      exact_mod_cast Nat.lt_of_lt_of_le (by norm_num) h2
    exact ne_of_gt this
  field_simp
  ring

/-- Reindexing a `range N` sum along a bijection of `[0, N)` given with its
inverse. -/
lemma sum_range_perm (N : ℕ) (σ τ : ℕ → ℕ) (g : ℕ → ℚ)
    (hσ : ∀ i < N, σ i < N) (hτ : ∀ i < N, τ i < N)
    (hτσ : ∀ i < N, τ (σ i) = i) (hστ : ∀ i < N, σ (τ i) = i) :
    ∑ i ∈ range N, g (σ i) = ∑ i ∈ range N, g i :=
  Finset.sum_nbij' σ τ
    (fun a ha => Finset.mem_range.mpr (hσ a (Finset.mem_range.mp ha)))
    (fun a ha => Finset.mem_range.mpr (hτ a (Finset.mem_range.mp ha)))
    (fun a ha => hτσ a (Finset.mem_range.mp ha))
    (fun a ha => hστ a (Finset.mem_range.mp ha))
    (fun _ _ => rfl)

/-- After a `train` call that passes the size check, `m_trace` holds the
freshly computed trace, whatever the assertion decides. -/
lemma train_m_trace (s : TrainerState) (N : ℕ) (eval : ℕ → ℕ → ℚ)
    (h2 : 2 ≤ N) : (train s N eval).1.m_trace = trainTrace N eval := by
  rw [train_eq s N eval h2]
  split_ifs <;> rfl

/-- After a `train` call that passes the size check, `m_mean` holds the
freshly computed (doubled) accumulator, whatever the assertion decides. -/
lemma train_m_mean (s : TrainerState) (N : ℕ) (eval : ℕ → ℕ → ℚ)
    (h2 : 2 ≤ N) : (train s N eval).1.m_mean = trainMean N eval := by
  rw [train_eq s N eval h2]
  split_ifs <;> rfl

/-! ## Claim theorems -/

/-- C1, counterexample: on the spec's own two-point dataset, `train`
succeeds but the value stored behind the `mean()` accessor is not the
full-matrix average `(1/N²) Σ_{i,j} eval(x_i, x_j)` (it is `14`, the
average being `7/2`): the raw accumulator is doubled but never divided
by `N²` before being stored. -/
theorem c1_mean_not_matrix_average_cex :
    (train s0 2 e2).2 = TrainOutcome.success
      ∧ (train s0 2 e2).1.m_mean
          ≠ 1 / (2 : ℚ) ^ 2 * ∑ i ∈ range 2, ∑ j ∈ range 2, e2 i j := by
  norm_num [train, trainMean, trainRawMean, trainTrace, blockedAcc,
    Finset.sum_range_succ, e2, s0]

/-- C1, amended: after a successful `train` on `N ≥ 2` points with a
symmetric kernel, the `mean()` accessor returns the full-matrix sum
`Σ_{i,j} eval(x_i, x_j)` — the raw upper-triangle accumulator (diagonal
half-weighted) doubled, with no division by `N²`. -/
theorem c1_mean_accessor_eq_full_matrix_sum (s : TrainerState) (N : ℕ)
    (eval : ℕ → ℕ → ℚ) (h2 : 2 ≤ N)
    (hsym : ∀ i < N, ∀ j < N, eval i j = eval j i)
    (_hsucc : (train s N eval).2 = TrainOutcome.success) :
    (train s N eval).1.m_mean = ∑ i ∈ range N, ∑ j ∈ range N, eval i j := by
  rw [train_m_mean s N eval h2, trainMean_eq_fullSum N eval hsym]

/-- C1, witness for the amended theorem at the two-point dataset. -/
theorem c1_mean_accessor_eq_full_matrix_sum_witness :
    2 ≤ 2 ∧ (∀ i < 2, ∀ j < 2, e2 i j = e2 j i)
      ∧ (train s0 2 e2).2 = TrainOutcome.success
      ∧ (train s0 2 e2).1.m_mean = ∑ i ∈ range 2, ∑ j ∈ range 2, e2 i j :=
  ⟨by norm_num, by decide,
    by
      norm_num [train, trainMean, trainRawMean, trainTrace, blockedAcc,
        Finset.sum_range_succ, e2, s0],
    c1_mean_accessor_eq_full_matrix_sum s0 2 e2 (by norm_num) (by decide)
      (by
        norm_num [train, trainMean, trainRawMean, trainTrace, blockedAcc,
          Finset.sum_range_succ, e2, s0])⟩

/-- C2, counterexample: on the two-point dataset the scale factor written
into the kernel is not `1/4.125 = 8/33` (it is `2/3`). -/
theorem c2_two_point_cex :
    (train s0 2 e2).1.kernelFactor ≠ 8 / 33 := by
  norm_num [train, trainMean, trainRawMean, trainTrace, blockedAcc,
    Finset.sum_range_succ, e2, s0]

/-- C2, amended: on the two-point dataset the raw visited sum is `7`,
`train` stores `trace = 10` and `mean = 14` (the raw sum doubled, not
divided by `N²`), the denominator is `10/2 - 14/4 = 3/2`, and the factor
written is `2/3`. -/
theorem c2_two_point_values :
    trainRawMean 2 e2 = 7
      ∧ trainDenom 2 e2 = 3 / 2
      ∧ train s0 2 e2 = (⟨14, 10, 2 / 3⟩, TrainOutcome.success) := by
  norm_num [train, trainDenom, trainMean, trainRawMean, trainTrace,
    blockedAcc, Finset.sum_range_succ, e2, s0]

/-- C3, counterexample: for the constant kernel `c = 1` on `N = 2` points
the stored mean is not `c = 1` (it is `N² c = 4`); moreover the
denominator is `0`, so normalization does not succeed for any positive
constant kernel, contrary to the claim. -/
theorem c3_constant_kernel_cex :
    (train s0 2 fun _ _ => (1 : ℚ)).1.m_mean ≠ 1 := by
  norm_num [train, trainMean, trainRawMean, trainTrace, blockedAcc,
    Finset.sum_range_succ, s0]

/-- C3, amended: for the constant kernel `eval(x,y) = c` on `N ≥ 2`
points, `train` computes `trace = N c` and `mean = N² c`, the denominator
`trace/N - mean/N² = c - c = 0` is never strictly positive, and `train`
always ends in the fatal assertion. -/
theorem c3_constant_kernel_values (s : TrainerState) (N : ℕ) (c : ℚ)
    (h2 : 2 ≤ N) :
    trainTrace N (fun _ _ => c) = N * c
      ∧ trainMean N (fun _ _ => c) = (N : ℚ) ^ 2 * c
      ∧ trainDenom N (fun _ _ => c) = 0
      ∧ (train s N fun _ _ => c).2 = TrainOutcome.assertionFailure := by
  obtain ⟨h1, hm, h3⟩ := const_kernel_stats N c h2
  refine ⟨h1, hm, h3, ?_⟩
  rw [train_eq s N _ h2, h3]
  norm_num

/-- C3, witness for the amended theorem at `N = 2`, `c = 1`. -/
theorem c3_constant_kernel_values_witness :
    2 ≤ 2
      ∧ (trainTrace 2 (fun _ _ => (1 : ℚ)) = 2 * 1
          ∧ trainMean 2 (fun _ _ => (1 : ℚ)) = (2 : ℚ) ^ 2 * 1
          ∧ trainDenom 2 (fun _ _ => (1 : ℚ)) = 0
          ∧ (train s0 2 fun _ _ => (1 : ℚ)).2 = TrainOutcome.assertionFailure) :=
  ⟨by norm_num, by
    have h := c3_constant_kernel_values s0 2 1 (by norm_num)
    exact_mod_cast h⟩

/-- C4: on `N ≥ 2` points one `train` call makes exactly `N (N + 1) / 2`
evaluator calls: each unordered off-diagonal pair `{a, b}` with
`b < a < N` exactly once (in one of the two argument orders) and each
diagonal pair `(d, d)` with `d < N` exactly once, for every `N` (whole,
partial or no 64-blocks alike). -/
theorem c4_pair_count (N a b d : ℕ) (h2 : 2 ≤ N) (hba : b < a) (haN : a < N)
    (hdN : d < N) :
    totalEvalCalls N = N * (N + 1) / 2
      ∧ evalCallsAt N a b + evalCallsAt N b a = 1
      ∧ evalCallsAt N d d = 1 := by
  refine ⟨totalEvalCalls_eq N h2, ?_, ?_⟩
  · rw [evalCallsAt_eq N a b h2, evalCallsAt_eq N b a h2,
      if_pos ⟨le_of_lt hba, haN⟩, if_neg (by omega)]
    norm_num
  · rw [evalCallsAt_eq N d d h2, if_pos ⟨le_refl d, hdN⟩]

/-- C4, witness at `N = 2`, off-diagonal pair `(1, 0)` and the last
diagonal index `d = 1 = N - 1`. -/
theorem c4_pair_count_witness :
    2 ≤ 2 ∧ 0 < 1 ∧ 1 < 2 ∧ 1 < 2
      ∧ (totalEvalCalls 2 = 2 * (2 + 1) / 2
          ∧ evalCallsAt 2 1 0 + evalCallsAt 2 0 1 = 1
          ∧ evalCallsAt 2 1 1 = 1) :=
  ⟨by norm_num, by norm_num, by norm_num, by norm_num, by
    have h := c4_pair_count 2 1 0 1 (by norm_num) (by norm_num) (by norm_num)
      (by norm_num)
    exact_mod_cast h⟩

/-- C5: after a successful `train` on `N ≥ 2` points, the `trace()`
accessor returns `Σ_{i < N} eval(x_i, x_i)`: the blocked traversal visits
every diagonal index exactly once. -/
theorem c5_trace_accessor_eq_diagonal_sum (s : TrainerState) (N : ℕ)
    (eval : ℕ → ℕ → ℚ) (h2 : 2 ≤ N)
    (_hsucc : (train s N eval).2 = TrainOutcome.success) :
    (train s N eval).1.m_trace = ∑ i ∈ range N, eval i i := by
  rw [train_m_trace s N eval h2, trainTrace_eq]

/-- C5, witness at the two-point dataset. -/
theorem c5_trace_accessor_eq_diagonal_sum_witness :
    2 ≤ 2 ∧ (train s0 2 e2).2 = TrainOutcome.success
      ∧ (train s0 2 e2).1.m_trace = ∑ i ∈ range 2, e2 i i :=
  ⟨by norm_num,
    by
      norm_num [train, trainMean, trainRawMean, trainTrace, blockedAcc,
        Finset.sum_range_succ, e2, s0],
    c5_trace_accessor_eq_diagonal_sum s0 2 e2 (by norm_num)
      (by
        norm_num [train, trainMean, trainRawMean, trainTrace, blockedAcc,
          Finset.sum_range_succ, e2, s0])⟩

/-- C6: when the denominator `trace/N - mean/N/N` is not strictly
positive, `train` ends in the fatal assertion and the kernel's scale
factor is left untouched (`setFactor` is never reached). -/
theorem c6_degenerate_assertion (s : TrainerState) (N : ℕ)
    (eval : ℕ → ℕ → ℚ) (h2 : 2 ≤ N) (hd : trainDenom N eval ≤ 0) :
    (train s N eval).2 = TrainOutcome.assertionFailure
      ∧ (train s N eval).1.kernelFactor = s.kernelFactor := by
  rw [train_eq s N eval h2, if_neg (not_lt.mpr hd)]
  exact ⟨rfl, rfl⟩

/-- C6, witness: the constant kernel `1` on two points has denominator
`0`, and `train` from state `s0` asserts without touching the factor. -/
theorem c6_degenerate_assertion_witness :
    2 ≤ 2 ∧ trainDenom 2 (fun _ _ => (1 : ℚ)) ≤ 0
      ∧ ((train s0 2 fun _ _ => (1 : ℚ)).2 = TrainOutcome.assertionFailure
          ∧ (train s0 2 fun _ _ => (1 : ℚ)).1.kernelFactor = s0.kernelFactor) :=
  ⟨by norm_num,
    le_of_eq (const_kernel_stats 2 1 (by norm_num)).2.2,
    c6_degenerate_assertion s0 2 (fun _ _ => 1) (by norm_num)
      (le_of_eq (const_kernel_stats 2 1 (by norm_num)).2.2)⟩

/-- C7: on a dataset of fewer than two elements, `train` fails with
`InvalidArgument` leaving the whole state untouched, and performs no
evaluator call at all. -/
theorem c7_small_dataset_invalid_argument (s : TrainerState) (N : ℕ)
    (eval : ℕ → ℕ → ℚ) (h : N < 2) :
    train s N eval = (s, TrainOutcome.invalidArgument)
      ∧ totalEvalCalls N = 0 := by
  unfold train totalEvalCalls
  rw [if_pos h, if_pos h]
  exact ⟨rfl, rfl⟩

/-- C7, witness at `N = 1`. -/
theorem c7_small_dataset_invalid_argument_witness :
    1 < 2 ∧ (train s0 1 e2 = (s0, TrainOutcome.invalidArgument)
      ∧ totalEvalCalls 1 = 0) :=
  ⟨by norm_num, c7_small_dataset_invalid_argument s0 1 e2 (by norm_num)⟩

/-- C8: permuting the dataset (precomposing the kernel with a bijection
`σ` of `[0, N)`, inverse `τ`) changes neither the stored trace nor the
stored mean, for any kernel symmetric on the dataset, from any starting
states. -/
theorem c8_permutation_invariance (s s' : TrainerState) (N : ℕ)
    (eval : ℕ → ℕ → ℚ) (σ τ : ℕ → ℕ) (h2 : 2 ≤ N)
    (hsym : ∀ i < N, ∀ j < N, eval i j = eval j i)
    (hσ : ∀ i < N, σ i < N) (hτ : ∀ i < N, τ i < N)
    (hτσ : ∀ i < N, τ (σ i) = i) (hστ : ∀ i < N, σ (τ i) = i) :
    (train s' N fun i j => eval (σ i) (σ j)).1.m_trace
        = (train s N eval).1.m_trace
      ∧ (train s' N fun i j => eval (σ i) (σ j)).1.m_mean
        = (train s N eval).1.m_mean := by
  constructor
  · rw [train_m_trace _ _ _ h2, train_m_trace _ _ _ h2, trainTrace_eq,
      trainTrace_eq]
    exact sum_range_perm N σ τ (fun k => eval k k) hσ hτ hτσ hστ
  · rw [train_m_mean _ _ _ h2, train_m_mean _ _ _ h2]
    have hsymσ : ∀ i < N, ∀ j < N, eval (σ i) (σ j) = eval (σ j) (σ i) :=
      fun i hi j hj => hsym (σ i) (hσ i hi) (σ j) (hσ j hj)
    rw [trainMean_eq_fullSum N _ hsymσ, trainMean_eq_fullSum N eval hsym]
    have hinner : ∀ k, ∑ j ∈ range N, eval k (σ j) = ∑ j ∈ range N, eval k j :=
      fun k => sum_range_perm N σ τ (fun j => eval k j) hσ hτ hτσ hστ
    calc ∑ i ∈ range N, ∑ j ∈ range N, eval (σ i) (σ j)
        = ∑ i ∈ range N, ∑ j ∈ range N, eval (σ i) j :=
          Finset.sum_congr rfl fun i _ => hinner (σ i)
      _ = ∑ i ∈ range N, ∑ j ∈ range N, eval i j :=
          sum_range_perm N σ τ (fun i => ∑ j ∈ range N, eval i j) hσ hτ hτσ hστ

/-- C8, witness: swapping the two points of the two-point dataset. -/
theorem c8_permutation_invariance_witness :
    2 ≤ 2 ∧ (∀ i < 2, ∀ j < 2, e2 i j = e2 j i)
      ∧ (∀ i < 2, 1 - i < 2) ∧ (∀ i < 2, 1 - (1 - i) = i)
      ∧ ((train s0 2 fun i j => e2 (1 - i) (1 - j)).1.m_trace
            = (train s0 2 e2).1.m_trace
          ∧ (train s0 2 fun i j => e2 (1 - i) (1 - j)).1.m_mean
            = (train s0 2 e2).1.m_mean) :=
  ⟨by norm_num, by decide, by decide, by decide,
    c8_permutation_invariance s0 s0 2 e2 (fun i => 1 - i) (fun i => 1 - i)
      (by norm_num) (by decide) (by decide) (by decide) (by decide) (by decide)⟩

/-- C9: when the denominator assertion fires, `m_mean` and `m_trace` have
already been overwritten with this call's freshly computed values (for
every prior state `s`), so the accessors afterwards reflect the failed
computation: the failure is not atomic for the cached statistics. -/
theorem c9_failed_train_overwrites_statistics (s : TrainerState) (N : ℕ)
    (eval : ℕ → ℕ → ℚ) (h2 : 2 ≤ N) (hd : trainDenom N eval ≤ 0) :
    (train s N eval).2 = TrainOutcome.assertionFailure
      ∧ (train s N eval).1.m_mean = trainMean N eval
      ∧ (train s N eval).1.m_trace = trainTrace N eval := by
  rw [train_eq s N eval h2, if_neg (not_lt.mpr hd)]
  exact ⟨rfl, rfl, rfl⟩

/-- C9, witness: the constant kernel `1` on two points from the state
`s0` (whose prior statistics are `0`). -/
theorem c9_failed_train_overwrites_statistics_witness :
    2 ≤ 2 ∧ trainDenom 2 (fun _ _ => (1 : ℚ)) ≤ 0
      ∧ ((train s0 2 fun _ _ => (1 : ℚ)).2 = TrainOutcome.assertionFailure
          ∧ (train s0 2 fun _ _ => (1 : ℚ)).1.m_mean
              = trainMean 2 (fun _ _ => (1 : ℚ))
          ∧ (train s0 2 fun _ _ => (1 : ℚ)).1.m_trace
              = trainTrace 2 (fun _ _ => (1 : ℚ))) :=
  ⟨by norm_num,
    le_of_eq (const_kernel_stats 2 1 (by norm_num)).2.2,
    c9_failed_train_overwrites_statistics s0 2 (fun _ _ => 1) (by norm_num)
      (le_of_eq (const_kernel_stats 2 1 (by norm_num)).2.2)⟩

/-- C10: every evaluator call `eval(input(ii), input(jj))` a `train` call
on `N ≥ 2` points performs has `jj ≤ ii < N`: all dataset accesses are in
range and only the lower triangle (diagonal included) is visited. -/
theorem c10_calls_in_lower_triangle (N a b : ℕ) (h2 : 2 ≤ N)
    (hc : evalCallsAt N a b ≠ 0) :
    b ≤ a ∧ a < N := by
  rw [evalCallsAt_eq N a b h2] at hc
  by_contra h
  rw [if_neg h] at hc
  exact hc rfl

/-- C10, witness: the call on the pair `(1, 0)` at `N = 2`. -/
theorem c10_calls_in_lower_triangle_witness :
    2 ≤ 2 ∧ evalCallsAt 2 1 0 ≠ 0 ∧ (0 ≤ 1 ∧ 1 < 2) :=
  ⟨by norm_num,
    by
      rw [evalCallsAt_eq 2 1 0 (by norm_num)]
      norm_num,
    c10_calls_in_lower_triangle 2 1 0 (by norm_num)
      (by
        rw [evalCallsAt_eq 2 1 0 (by norm_num)]
        norm_num)⟩

end Shark
